import Mathlib

/-!
# Nikon_HDR_Grouper — verification of the core grouping algorithm

Shallow embedding of `src/Nikon_HDR_Grouper.py`. The core under
verification is `group_hdr_photos` (lines 43–100): a segmentation pass
over the time-sorted record list, followed by a validation pass that
keeps only runs that look like symmetric HDR exposure brackets.

Modelling choices, stated once:

* A `PhotoRecord` is the post-extraction record. `timestamp` models the
  parsed `Date Taken` (a `datetime` at whole-second granularity, as
  produced by `parse_date` from the `%Y:%m:%d %H:%M:%S` format), as an
  optional integer number of epoch seconds. `exposureBias` models the
  *parsed* exposure bias: `none` when the tag is `'N/A'` or unparsable
  (the code drops both kinds at lines 72–73), `some q` when it parses.
  Real-valued arithmetic of the source is idealised over `ℚ`.
* A second, string-level layer (`RawRecord`, `parse_exposure_bias`,
  `group_hdr_photos_raw`) models lines 33–41 and 72–73 before parsing,
  with Python exceptions made explicit in `Except`, in order to settle
  the totality claim about unparsable bias strings.
* Python's `sorted` on the adjusted bias values is modelled by insertion
  sort `sortAsc`; on a list of plain values every ascending sort produces
  the same list, so the algorithm choice is immaterial.
* Python's `set(l)` is used only through `len(set(l))`, modelled by
  `l.dedup.length`.
-/

namespace NikonHDRGrouper

structure PhotoRecord where
  fileName : String
  /-- the `Date Taken` field in epoch seconds; `none` models a `None`
  datetime (absent or unparsable date). -/
  timestamp : Option ℤ
  exposureMode : String
  /-- the parsed exposure bias; `none` when absent (`'N/A'`) or
  unparsable. -/
  exposureBias : Option ℚ
deriving DecidableEq, Inhabited

/-- Line 55: `(current - prev).total_seconds() if current and prev else inf`,
followed by the comparison `time_diff > 1` of line 59.  A missing timestamp
on either side makes the difference infinite, hence the comparison true. -/
def timeDiffBig (prev cur : Option ℤ) : Bool :=
  match prev, cur with
  | some p, some c => decide (c - p > 1)
  | _, _ => true

/-- Line 59: the run-boundary condition
`time_diff > 1 or not same_mode or len(temp_group) >= 9`,
evaluated at the current record with `prev = data[i-1]` and `tempLen`
the length of the accumulator `temp_group`. -/
def newRunCond (prev cur : PhotoRecord) (tempLen : ℕ) : Bool :=
  timeDiffBig prev.timestamp cur.timestamp
    || decide (cur.exposureMode ≠ prev.exposureMode)
    || decide (tempLen ≥ 9)

/-- Lines 48–67, the segmentation loop, as a recursion on the remaining
records with the accumulator `temp` as state.  In the loop, `prev` is
`data[i-1]`; whenever `i > 0` the accumulator is non-empty and its last
element is exactly `data[i-1]` (the previous iteration ends by appending
it, line 64), so `prev` is recovered as `temp.getLast?` and the `i > 0`
guard as that option being `some`.  The `rest = []` case is the final
`if temp_group: hdr_groups.append(temp_group)` of lines 66–67. -/
def segGo (temp : List PhotoRecord) : List PhotoRecord → List (List PhotoRecord)
  | [] => if temp.isEmpty then [] else [temp]
  | cur :: rest =>
    match temp.getLast? with
    | none => segGo [cur] rest
    | some prev =>
      if newRunCond prev cur temp.length then
        temp :: segGo [cur] rest
      else
        segGo (temp ++ [cur]) rest

/-- The segmentation phase of `group_hdr_photos` (lines 45–67). -/
def segmentRuns (data : List PhotoRecord) : List (List PhotoRecord) :=
  segGo [] data

/-- Ascending insertion of one value (helper for `sortAsc`). -/
def insertAsc (x : ℚ) : List ℚ → List ℚ
  | [] => [x]
  | y :: ys => if x ≤ y then x :: y :: ys else y :: insertAsc x ys

/-- Line 90, `sorted(adjusted_biases)`: ascending sort of rational values. -/
def sortAsc : List ℚ → List ℚ
  | [] => []
  | x :: xs => insertAsc x (sortAsc xs)

/-- Line 92: consecutive differences of a list,
`[l[i] - l[i-1] for i in range(1, len(l))]`. -/
def consecDiffs (l : List ℚ) : List ℚ :=
  List.zipWith (fun a b => a - b) l.tail l

/-- Lines 72–73 after parsing: the biases present in a group, in original
order.  At the string level the code keeps a member iff its tag is not
`'N/A'` and its first token parses; both failure kinds are `none` here. -/
def presentBiases (group : List PhotoRecord) : List ℚ :=
  group.filterMap (fun p => p.exposureBias)

/-- Lines 75–97, the validation of one candidate run, acting on its list
of present biases (in original order):
empty list → reject (75–76); a single distinct value → reject (79–81);
size below 3 or even size → reject (84–85); then `base = biases[0]`,
the base-adjusted values are sorted ascending, and the run is accepted
iff the consecutive differences are all one value and the
strictly-under-base and strictly-over-base counts agree (88–97). -/
def validateBiases : List ℚ → Bool
  | [] => false
  | base :: rest =>
    let biases := base :: rest
    if biases.dedup.length = 1 then false
    else if biases.length < 3 ∨ biases.length % 2 = 0 then false
    else
      let adjusted := biases.map (fun b => b - base)
      let sorted_biases := sortAsc adjusted
      let intervals := consecDiffs sorted_biases
      let num_under := (biases.filter (fun b => b < base)).length
      let num_over := (biases.filter (fun b => base < b)).length
      if intervals.dedup.length = 1 ∧ num_under = num_over then true else false

/-- The per-run acceptance test of lines 71–98. -/
def validateRun (group : List PhotoRecord) : Bool :=
  validateBiases (presentBiases group)

/-- Lines 43–100: segmentation, then the validation filter, preserving
run order (`final_groups.append(group)` inside the `for` over
`hdr_groups`). -/
def group_hdr_photos (data : List PhotoRecord) : List (List PhotoRecord) :=
  (segmentRuns data).filter validateRun

/-! ## The string level: bias parsing and the raw pipeline

The claims about totality concern the code *before* bias parsing, where
the `Exposure Bias` field is still the string printed by exifread
(`'N/A'` when the tag was absent).  Python exceptions are made explicit
in `Except`. -/

inductive PyError where
  /-- `ZeroDivisionError`: raised by `float / float` with a zero divisor;
  not caught by the `except ValueError` of line 40. -/
  | zeroDivisionError
  /-- `IndexError`: raised by `[0]` on the empty list `"".split()`
  at line 72; not caught anywhere in `group_hdr_photos`. -/
  | indexError
deriving DecidableEq, Inhabited

/-- Value of a list of decimal digit characters. -/
def decDigitsVal (cs : List Char) : ℕ :=
  cs.foldl (fun n c => 10 * n + (c.toNat - 48)) 0

/-- Leading and trailing space characters removed, modelling the
whitespace stripping Python's `float` applies to its string argument
(whitespace is modelled as the space character, the only whitespace
occurring in exifread's printed values). -/
def trimWs (cs : List Char) : List Char :=
  ((cs.dropWhile (fun c => c = ' ')).reverse.dropWhile (fun c => c = ' ')).reverse

/-- Python's `str.split(sep)` for a one-character separator, on the
character list of the string: splits at every occurrence, keeping empty
pieces. -/
def splitOnChar (c : Char) : List Char → List (List Char)
  | [] => [[]]
  | x :: xs =>
    if x = c then [] :: splitOnChar c xs
    else
      match splitOnChar c xs with
      | [] => [[x]]
      | t :: ts => (x :: t) :: ts

/-- Python's `float(s)` on the sign-and-decimal-digits fragment of its
grammar (optional sign, digits with at most one point, at least one
digit), the fragment exifread's ratio components use; `none` models
`ValueError`.  The value is taken exactly in `ℚ` — the idealisation of
the source's binary floating point stated in the file header. -/
def pyFloat (cs0 : List Char) : Option ℚ :=
  let cs := trimWs cs0
  match cs with
  | '-' :: t => (pyFloatMag t).map (fun q => -q)
  | '+' :: t => pyFloatMag t
  | t => pyFloatMag t
where
  /-- unsigned part: `digits`, `digits.digits`, `digits.` or `.digits`. -/
  pyFloatMag (u : List Char) : Option ℚ :=
    match splitOnChar '.' u with
    | [ip] =>
      if ip ≠ [] ∧ ip.all Char.isDigit then some (decDigitsVal ip) else none
    | [ip, fp] =>
      if (ip ≠ [] ∨ fp ≠ []) ∧ ip.all Char.isDigit ∧ fp.all Char.isDigit then
        some ((decDigitsVal ip : ℚ) + (decDigitsVal fp : ℚ) / 10 ^ fp.length)
      else none
    | _ => none

/-- Lines 33–41, `parse_exposure_bias`: a string with a `/` is split and
parsed as `float/float`; `except ValueError` (line 40) catches parse
failures of `float` and the unpacking failure when the split does not
have exactly two parts, returning `None` (`.ok none`), but a
`ZeroDivisionError` from a zero denominator propagates. -/
def parse_exposure_bias (value : String) : Except PyError (Option ℚ) :=
  if value.toList.contains '/' then
    match (splitOnChar '/' value.toList).map pyFloat with
    | [some n, some d] =>
      if d = 0 then .error .zeroDivisionError else .ok (some (n / d))
    | [_, _] => .ok none
    | _ => .ok none
  else
    .ok (pyFloat value.toList)

/-- The record as it enters `group_hdr_photos` in the script: the
`Exposure Bias` field is still the tag's string form, `"N/A"` when the
tag was absent. -/
structure RawRecord where
  fileName : String
  timestamp : Option ℤ
  exposureMode : String
  exposureBias : String
deriving DecidableEq, Inhabited

/-- Line 59's boundary condition over raw records (the segmentation
loop never looks at the bias field). -/
def rawRunCond (prev cur : RawRecord) (tempLen : ℕ) : Bool :=
  timeDiffBig prev.timestamp cur.timestamp
    || decide (cur.exposureMode ≠ prev.exposureMode)
    || decide (tempLen ≥ 9)

/-- Lines 48–67 over raw records, same shape as `segGo`. -/
def segGoRaw (temp : List RawRecord) : List RawRecord → List (List RawRecord)
  | [] => if temp.isEmpty then [] else [temp]
  | cur :: rest =>
    match temp.getLast? with
    | none => segGoRaw [cur] rest
    | some prev =>
      if rawRunCond prev cur temp.length then
        temp :: segGoRaw [cur] rest
      else
        segGoRaw (temp ++ [cur]) rest

/-- Python's `str.split()` (no argument): split on whitespace runs,
dropping empty pieces; whitespace modelled as the space character. -/
def pySplitWs (s : String) : List String :=
  ((splitOnChar ' ' s.toList).filter (fun t => ¬ t.isEmpty)).map List.asString

/-- Line 72 for one member:
`parse_exposure_bias(photo["Exposure Bias"].split()[0])` under the guard
`photo["Exposure Bias"] != 'N/A'`.  The outer `none` is the guard
filtering the member out; `[0]` of the empty split of `""` raises
`IndexError`. -/
def memberBias (p : RawRecord) : Except PyError (Option (Option ℚ)) :=
  if p.exposureBias = "N/A" then .ok none
  else
    match pySplitWs p.exposureBias with
    | [] => .error .indexError
    | tok :: _ => (parse_exposure_bias tok).map some

/-- Lines 72–73: the comprehension evaluates members left to right (the
first exception wins), and parse failures (`None` values) are dropped. -/
def extractBiases : List RawRecord → Except PyError (List ℚ)
  | [] => .ok []
  | p :: ps => do
    let b ← memberBias p
    let bs ← extractBiases ps
    match b with
    | some (some q) => pure (q :: bs)
    | _ => pure bs

/-- Lines 71–98 at the string level: each run's biases are extracted
(possibly raising) and then put through the same pure checks. -/
def filterRawGroups : List (List RawRecord) → Except PyError (List (List RawRecord))
  | [] => .ok []
  | g :: gs => do
    let ok ← (extractBiases g).map validateBiases
    let rest ← filterRawGroups gs
    pure (if ok then g :: rest else rest)

/-- Lines 43–100 at the string level, with Python exceptions explicit. -/
def group_hdr_photos_raw (data : List RawRecord) :
    Except PyError (List (List RawRecord)) :=
  filterRawGroups (segGoRaw [] data)

/-! ## The sort of line 156 -/

/-- Line 156's sort key comparison:
`(x["Date Taken"] or datetime.min, x["File Name"])`, an absent datetime
acting as the minimum. -/
def sortKeyLE (a b : PhotoRecord) : Bool :=
  match a.timestamp, b.timestamp with
  | none, none => decide (a.fileName ≤ b.fileName)
  | none, some _ => true
  | some _, none => false
  | some x, some y =>
    if x = y then decide (a.fileName ≤ b.fileName) else decide (x < y)

/-- Helper for `sortRecords`: ordered insertion under `sortKeyLE`. -/
def insertByKey (x : PhotoRecord) : List PhotoRecord → List PhotoRecord
  | [] => [x]
  | y :: ys => if sortKeyLE x y then x :: y :: ys else y :: insertByKey x ys

/-- Line 156, `sorted(data, key=...)`: an insertion sort under
`sortKeyLE` (a stable sort, like Python's). -/
def sortRecords : List PhotoRecord → List PhotoRecord
  | [] => []
  | x :: xs => insertByKey x (sortRecords xs)

/-! ## Concrete inputs used by the scenario claims -/

/-- Record builder: name, timestamp in seconds, mode, parsed bias. -/
def mkRec (name : String) (t : ℤ) (mode : String) (b : Option ℚ) : PhotoRecord :=
  ⟨name, some t, mode, b⟩

/-- Scenario A input: five records with biases −2, −1, 0, +1, +2 EV in
that capture order, consecutive timestamps exactly one second apart, one
exposure mode throughout. -/
def dataA : List PhotoRecord :=
  [mkRec "a1" 0 "M" (some (-2)), mkRec "a2" 1 "M" (some (-1)),
   mkRec "a3" 2 "M" (some 0), mkRec "a4" 3 "M" (some 1),
   mkRec "a5" 4 "M" (some 2)]

/-- An input whose accepted groups stop being accepted when re-grouped:
two valid 3-brackets in mode `M` separated only by a mode-`X` record
(same timestamp as the previous record, so the mode change alone splits
the runs).  Sorted by `(timestamp, fileName)`. -/
def dataB : List PhotoRecord :=
  [mkRec "a1" 0 "M" (some 0), mkRec "a2" 1 "M" (some (-1)),
   mkRec "a3" 2 "M" (some 1), mkRec "b1" 2 "X" none,
   mkRec "c1" 3 "M" (some 0), mkRec "c2" 4 "M" (some (-1)),
   mkRec "c3" 5 "M" (some 1)]

/-- Four tightly spaced same-mode records, one of them with an absent
exposure bias; the three present biases 0, −1, +1 form a valid bracket. -/
def dataC : List PhotoRecord :=
  [mkRec "p1" 0 "M" (some 0), mkRec "p2" 1 "M" none,
   mkRec "p3" 2 "M" (some (-1)), mkRec "p4" 3 "M" (some 1)]

/-- Scenario D input: 19 same-mode records, consecutive timestamps one
second apart, biases repeating the symmetric triplet −1, 0, +1. -/
def dataD : List PhotoRecord :=
  [mkRec "d01" 0 "M" (some (-1)), mkRec "d02" 1 "M" (some 0),
   mkRec "d03" 2 "M" (some 1), mkRec "d04" 3 "M" (some (-1)),
   mkRec "d05" 4 "M" (some 0), mkRec "d06" 5 "M" (some 1),
   mkRec "d07" 6 "M" (some (-1)), mkRec "d08" 7 "M" (some 0),
   mkRec "d09" 8 "M" (some 1), mkRec "d10" 9 "M" (some (-1)),
   mkRec "d11" 10 "M" (some 0), mkRec "d12" 11 "M" (some 1),
   mkRec "d13" 12 "M" (some (-1)), mkRec "d14" 13 "M" (some 0),
   mkRec "d15" 14 "M" (some 1), mkRec "d16" 15 "M" (some (-1)),
   mkRec "d17" 16 "M" (some 0), mkRec "d18" 17 "M" (some 1),
   mkRec "d19" 18 "M" (some (-1))]

/-! ## Segmentation lemmas -/

theorem segGo_flatten (rest : List PhotoRecord) :
    ∀ temp, (segGo temp rest).flatten = temp ++ rest := by
  induction rest with
  | nil =>
    intro temp
    by_cases h : temp.isEmpty
    · simp [segGo, h, List.isEmpty_iff.mp h]
    · simp [segGo, h]
  | cons cur rest ih =>
    intro temp
    cases hl : temp.getLast? with
    | none =>
      have ht : temp = [] := List.getLast?_eq_none_iff.mp hl
      subst ht
      simp [segGo, ih]
    | some prev =>
      cases hc : newRunCond prev cur temp.length with
      | true => simp [segGo, hl, hc, ih]
      | false => simp [segGo, hl, hc, ih]

theorem segGo_ne_nil (rest : List PhotoRecord) :
    ∀ temp, ∀ r ∈ segGo temp rest, r ≠ [] := by
  induction rest with
  | nil =>
    intro temp r hr
    by_cases h : temp.isEmpty
    · simp [segGo, h] at hr
    · simp [segGo, h] at hr
      subst hr
      exact fun hnil => h (by simp [hnil])
  | cons cur rest ih =>
    intro temp r hr
    cases hl : temp.getLast? with
    | none =>
      have ht : temp = [] := List.getLast?_eq_none_iff.mp hl
      subst ht
      exact ih [cur] r (by simpa [segGo] using hr)
    | some prev =>
      cases hc : newRunCond prev cur temp.length with
      | true =>
        simp [segGo, hl, hc] at hr
        rcases hr with rfl | hr
        · exact List.getLast?_eq_none_iff.not.mp (by simp [hl])
        · exact ih [cur] r hr
      | false =>
        exact ih (temp ++ [cur]) r (by simpa [segGo, hl, hc] using hr)

theorem segGo_length_le (rest : List PhotoRecord) :
    ∀ temp, temp.length ≤ 9 → ∀ r ∈ segGo temp rest, r.length ≤ 9 := by
  induction rest with
  | nil =>
    intro temp htl r hr
    by_cases h : temp.isEmpty
    · simp [segGo, h] at hr
    · simp [segGo, h] at hr
      subst hr
      exact htl
  | cons cur rest ih =>
    intro temp htl r hr
    cases hl : temp.getLast? with
    | none =>
      exact ih [cur] (by simp) r (by simpa [segGo, List.getLast?_eq_none_iff.mp hl] using hr)
    | some prev =>
      cases hc : newRunCond prev cur temp.length with
      | true =>
        simp [segGo, hl, hc] at hr
        rcases hr with rfl | hr
        · exact htl
        · exact ih [cur] (by simp) r hr
      | false =>
        have hlen : temp.length < 9 := by
          simp [newRunCond, Bool.or_eq_false_iff, decide_eq_false_iff_not] at hc
          omega
        refine ih (temp ++ [cur]) (by simp; omega) r ?_
        simpa [segGo, hl, hc] using hr

theorem segGo_first_run (rest : List PhotoRecord) :
    ∀ temp, temp ≠ [] → ∃ ext rs, segGo temp rest = (temp ++ ext) :: rs := by
  induction rest with
  | nil =>
    intro temp ht
    refine ⟨[], [], ?_⟩
    simp [segGo, ht]
  | cons cur rest ih =>
    intro temp ht
    cases hl : temp.getLast? with
    | none => exact absurd (List.getLast?_eq_none_iff.mp hl) ht
    | some prev =>
      cases hc : newRunCond prev cur temp.length with
      | true => exact ⟨[], segGo [cur] rest, by simp [segGo, hl, hc]⟩
      | false =>
        obtain ⟨ext, rs, hrec⟩ := ih (temp ++ [cur]) (by simp)
        exact ⟨cur :: ext, rs, by simp [segGo, hl, hc, hrec]⟩

theorem singleton_inner (x : PhotoRecord) :
    ∀ j a b, [x][j]? = some a → [x][j + 1]? = some b →
      newRunCond a b (j + 1) = false := by
  intro j a b _ hjb
  rw [List.getElem?_eq_none (by simp)] at hjb
  cases hjb

theorem segGo_inner (rest : List PhotoRecord) :
    ∀ temp,
      (∀ j a b, temp[j]? = some a → temp[j + 1]? = some b →
        newRunCond a b (j + 1) = false) →
      ∀ r ∈ segGo temp rest, ∀ j a b, r[j]? = some a → r[j + 1]? = some b →
        newRunCond a b (j + 1) = false := by
  induction rest with
  | nil =>
    intro temp htemp r hr
    by_cases h : temp.isEmpty
    · simp [segGo, h] at hr
    · simp [segGo, h] at hr
      subst hr
      exact htemp
  | cons cur rest ih =>
    intro temp htemp r hr
    cases hl : temp.getLast? with
    | none =>
      have ht : temp = [] := List.getLast?_eq_none_iff.mp hl
      subst ht
      exact ih [cur] (singleton_inner cur) r (by simpa [segGo] using hr)
    | some prev =>
      cases hc : newRunCond prev cur temp.length with
      | true =>
        simp [segGo, hl, hc] at hr
        rcases hr with rfl | hr
        · exact htemp
        · exact ih [cur] (singleton_inner cur) r hr
      | false =>
        refine ih (temp ++ [cur]) ?_ r (by simpa [segGo, hl, hc] using hr)
        intro j a b hja hjb
        by_cases hj : j + 1 < temp.length
        · refine htemp j a b ?_ ?_
          · rw [List.getElem?_append_left (by omega)] at hja
            exact hja
          · rw [List.getElem?_append_left hj] at hjb
            exact hjb
        · by_cases hj2 : j + 1 = temp.length
          · have ha : temp[j]? = some a := by
              rw [List.getElem?_append_left (by omega)] at hja
              exact hja
            have hgl : temp.getLast? = temp[j]? := by
              rw [List.getLast?_eq_getElem?]
              congr 1
              omega
            have hap : a = prev := by
              rw [hgl, ha] at hl
              exact (Option.some.inj hl)
            have hbc : b = cur := by
              have hcc := List.getElem?_concat_length temp cur
              rw [← hj2, hjb] at hcc
              exact Option.some.inj hcc
            rw [hap, hbc, hj2]
            exact hc
          · rw [List.getElem?_eq_none (by simp; omega)] at hjb
            cases hjb

theorem segGo_boundary (rest : List PhotoRecord) :
    ∀ temp k r r', (segGo temp rest)[k]? = some r →
      (segGo temp rest)[k + 1]? = some r' →
      ∀ a b, r.getLast? = some a → r'.head? = some b →
      newRunCond a b r.length = true := by
  induction rest with
  | nil =>
    intro temp k r r' hk hk' a b ha hb
    by_cases h : temp.isEmpty
    · simp [segGo, h] at hk
    · rw [List.getElem?_eq_none (by simp [segGo, h])] at hk'
      cases hk'
  | cons cur rest ih =>
    intro temp k r r' hk hk' a b ha hb
    cases hl : temp.getLast? with
    | none =>
      have ht : temp = [] := List.getLast?_eq_none_iff.mp hl
      subst ht
      exact ih [cur] k r r' (by simpa [segGo] using hk)
        (by simpa [segGo] using hk') a b ha hb
    | some prev =>
      cases hc : newRunCond prev cur temp.length with
      | false =>
        exact ih (temp ++ [cur]) k r r' (by simpa [segGo, hl, hc] using hk)
          (by simpa [segGo, hl, hc] using hk') a b ha hb
      | true =>
        rcases k with _ | k
        · have hr : r = temp := by
            have := hk
            simp [segGo, hl, hc] at this
            exact this.symm
          have hk0 : (segGo [cur] rest)[0]? = some r' := by
            simpa [segGo, hl, hc] using hk'
          obtain ⟨ext, rs, hfst⟩ := segGo_first_run rest [cur] (by simp)
          have hr' : r' = cur :: ext := by
            rw [hfst] at hk0
            simpa using hk0.symm
          subst hr
          rw [hl] at ha
          rw [hr'] at hb
          simp at hb
          rw [← Option.some.inj ha, ← hb]
          exact hc
        · exact ih [cur] k r r' (by simpa [segGo, hl, hc] using hk)
            (by simpa [segGo, hl, hc] using hk') a b ha hb

theorem segGo_no_split (rest : List PhotoRecord) :
    ∀ temp, temp ≠ [] →
      (∀ j a b, (temp ++ rest)[j]? = some a → (temp ++ rest)[j + 1]? = some b →
        newRunCond a b (j + 1) = false) →
      segGo temp rest = [temp ++ rest] := by
  induction rest with
  | nil =>
    intro temp ht _
    simp [segGo, ht]
  | cons cur rest ih =>
    intro temp ht hall
    have hpos : 0 < temp.length := by
      cases temp with
      | nil => exact absurd rfl ht
      | cons x xs => simp
    cases hl : temp.getLast? with
    | none => exact absurd (List.getLast?_eq_none_iff.mp hl) ht
    | some prev =>
      have hj : temp.length - 1 + 1 = temp.length := by omega
      have ha : (temp ++ cur :: rest)[temp.length - 1]? = some prev := by
        rw [List.getElem?_append_left (by omega), ← List.getLast?_eq_getElem?]
        exact hl
      have hb : (temp ++ cur :: rest)[temp.length - 1 + 1]? = some cur := by
        rw [hj, List.getElem?_append_right (le_refl _)]
        simp
      have hfalse : newRunCond prev cur temp.length = false := by
        have := hall (temp.length - 1) prev cur ha hb
        rwa [hj] at this
      have hrec : segGo (temp ++ [cur]) rest = [(temp ++ [cur]) ++ rest] := by
        refine ih (temp ++ [cur]) (by simp) ?_
        intro j a b hja hjb
        refine hall j a b ?_ ?_
        · simpa [List.append_assoc] using hja
        · simpa [List.append_assoc] using hjb
      simp [segGo, hl, hfalse, hrec, List.append_assoc]

/-! ## Validator lemmas -/

theorem length_insertAsc (x : ℚ) (l : List ℚ) :
    (insertAsc x l).length = l.length + 1 := by
  induction l with
  | nil => rfl
  | cons y ys ih => by_cases h : x ≤ y <;> simp [insertAsc, h, ih]

theorem length_sortAsc (l : List ℚ) : (sortAsc l).length = l.length := by
  induction l with
  | nil => rfl
  | cons x xs ih => simp [sortAsc, length_insertAsc, ih]

theorem length_consecDiffs (l : List ℚ) :
    (consecDiffs l).length = l.length - 1 := by
  simp [consecDiffs]

theorem dedup_length_one_iff (l : List ℚ) :
    l.dedup.length = 1 ↔ l ≠ [] ∧ ∀ x ∈ l, ∀ y ∈ l, x = y := by
  constructor
  · intro h
    obtain ⟨a, ha⟩ := List.length_eq_one.mp h
    refine ⟨?_, ?_⟩
    · intro hnil
      subst hnil
      simp at ha
    · intro x hx y hy
      have hx' : x ∈ l.dedup := List.mem_dedup.mpr hx
      have hy' : y ∈ l.dedup := List.mem_dedup.mpr hy
      rw [ha] at hx' hy'
      simp at hx' hy'
      rw [hx', hy']
  · rintro ⟨hne, hall⟩
    cases hd : l.dedup with
    | nil => exact absurd ((List.dedup_eq_nil l).mp hd) hne
    | cons a t =>
      cases t with
      | nil => simp [hd]
      | cons b u =>
        have hnd := List.nodup_dedup l
        rw [hd] at hnd
        have hab : a = b :=
          hall a (List.mem_dedup.mp (by rw [hd]; simp))
            b (List.mem_dedup.mp (by rw [hd]; simp))
        rw [hab] at hnd
        simp at hnd

theorem validateBiases_iff (biases : List ℚ) :
    validateBiases biases = true ↔
      ∃ base rest, biases = base :: rest ∧
        (¬ ∀ x ∈ biases, ∀ y ∈ biases, x = y) ∧
        3 ≤ biases.length ∧ biases.length % 2 = 1 ∧
        (∀ x ∈ consecDiffs (sortAsc (biases.map (fun b => b - base))),
          ∀ y ∈ consecDiffs (sortAsc (biases.map (fun b => b - base))), x = y) ∧
        (biases.filter (fun b => b < base)).length =
          (biases.filter (fun b => base < b)).length := by
  cases biases with
  | nil => simp [validateBiases]
  | cons base rest =>
    simp only [validateBiases]
    by_cases h1 : (base :: rest).dedup.length = 1
    · rw [if_pos h1]
      constructor
      · exact fun hft => (Bool.false_ne_true hft).elim
      · rintro ⟨base', rest', heq, hne, -⟩
        exact absurd ((dedup_length_one_iff _).mp h1).2 hne
    · rw [if_neg h1]
      by_cases h2 : (base :: rest).length < 3 ∨ (base :: rest).length % 2 = 0
      · rw [if_pos h2]
        constructor
        · exact fun hft => (Bool.false_ne_true hft).elim
        · rintro ⟨base', rest', heq, -, h3, h4, -⟩
          exact absurd h2 (by omega)
      · rw [if_neg h2]
        have hlen3 : 3 ≤ (base :: rest).length := by omega
        have hmod : (base :: rest).length % 2 = 1 := by omega
        have hneq : ¬ ∀ x ∈ (base :: rest), ∀ y ∈ (base :: rest), x = y := by
          intro hall
          exact h1 ((dedup_length_one_iff _).mpr ⟨by simp, hall⟩)
        have hInne :
            consecDiffs (sortAsc ((base :: rest).map (fun b => b - base))) ≠ [] := by
          intro hnil
          have hlc := length_consecDiffs (sortAsc ((base :: rest).map (fun b => b - base)))
          rw [hnil, length_sortAsc, List.length_map] at hlc
          have h3' : 3 ≤ rest.length + 1 := hlen3
          simp only [List.length_nil, List.length_cons] at hlc
          omega
        by_cases hc :
            (consecDiffs (sortAsc ((base :: rest).map (fun b => b - base)))).dedup.length = 1 ∧
            ((base :: rest).filter (fun b => b < base)).length =
              ((base :: rest).filter (fun b => base < b)).length
        · rw [if_pos hc]
          constructor
          · intro _
            exact ⟨base, rest, rfl, hneq, hlen3, hmod,
              ((dedup_length_one_iff _).mp hc.1).2, hc.2⟩
          · intro _
            rfl
        · rw [if_neg hc]
          constructor
          · exact fun hft => (Bool.false_ne_true hft).elim
          · rintro ⟨base', rest', heq, -, -, -, hint, hcnt⟩
            obtain ⟨hb, hr⟩ := List.cons.inj heq
            subst hb
            exact absurd ⟨(dedup_length_one_iff _).mpr ⟨hInne, hint⟩, hcnt⟩ hc

theorem validateBiases_size (biases : List ℚ) :
    validateBiases biases = true →
    3 ≤ biases.length ∧ biases.length % 2 = 1 := by
  intro h
  obtain ⟨-, -, -, -, h3, h4, -⟩ := (validateBiases_iff biases).mp h
  exact ⟨h3, h4⟩

/-! ## Pipeline-level helper lemmas -/

theorem mem_group_hdr_photos {data g : List PhotoRecord}
    (hg : g ∈ group_hdr_photos data) :
    g ∈ segmentRuns data ∧ validateRun g = true :=
  List.mem_filter.mp hg

theorem segmentRuns_inner (data : List PhotoRecord) :
    ∀ r ∈ segmentRuns data, ∀ j a b, r[j]? = some a → r[j + 1]? = some b →
      newRunCond a b (j + 1) = false := by
  refine segGo_inner data [] ?_
  intro j a b hja _
  simp at hja

theorem accepted_group_regroups_to_itself {data g : List PhotoRecord}
    (hg : g ∈ group_hdr_photos data) : group_hdr_photos g = [g] := by
  obtain ⟨hseg, hval⟩ := mem_group_hdr_photos hg
  have hne : g ≠ [] := segGo_ne_nil data [] g hseg
  have hinner := segmentRuns_inner data g hseg
  cases hg0 : g with
  | nil => exact absurd hg0 hne
  | cons g0 gs =>
    rw [hg0] at hinner hval
    have hsplit : segGo [g0] gs = [[g0] ++ gs] := by
      refine segGo_no_split gs [g0] (by simp) ?_
      intro j a b hja hjb
      refine hinner j a b ?_ ?_
      · simpa using hja
      · simpa using hjb
    have h0 : segmentRuns (g0 :: gs) = segGo [g0] gs := rfl
    show (segmentRuns (g0 :: gs)).filter validateRun = [g0 :: gs]
    rw [h0, hsplit]
    simp [List.filter, hval]

/-! ## The claims -/

/-- **C1.** For every candidate run produced by the segmentation phase
(stated for an arbitrary run `group`, hence in particular for every run
segmentation produces), the validator accepts the run iff: the list of
present exposure-bias values is non-empty — it then reads
`base :: rest` with `base` the bias of the first present-bias member in
original order; the present biases are not all equal; their count is at
least 3 and odd; the base-adjusted present biases, sorted ascending,
have all consecutive differences equal; and the count of present biases
strictly below `base` equals the count strictly above `base`. -/
theorem claim_c1_validator_iff (group : List PhotoRecord) :
    validateRun group = true ↔
      ∃ base rest, presentBiases group = base :: rest ∧
        (¬ ∀ x ∈ presentBiases group, ∀ y ∈ presentBiases group, x = y) ∧
        3 ≤ (presentBiases group).length ∧ Odd (presentBiases group).length ∧
        (∀ x ∈ consecDiffs (sortAsc ((presentBiases group).map (fun b => b - base))),
          ∀ y ∈ consecDiffs (sortAsc ((presentBiases group).map (fun b => b - base))),
          x = y) ∧
        ((presentBiases group).filter (fun b => b < base)).length =
          ((presentBiases group).filter (fun b => base < b)).length := by
  rw [validateRun, validateBiases_iff]
  constructor
  · rintro ⟨base, rest, h1, h2, h3, h4, h5, h6⟩
    exact ⟨base, rest, h1, h2, h3, Nat.odd_iff.mpr h4, h5, h6⟩
  · rintro ⟨base, rest, h1, h2, h3, h4, h5, h6⟩
    exact ⟨base, rest, h1, h2, h3, Nat.odd_iff.mp h4, h5, h6⟩

/-- **C2, counterexample.** Five records with biases −2, −1, 0, +1, +2 EV
in that capture order, timestamps one second apart, same mode, are NOT
returned as one accepted group of all five: with `base = −2` (the first
bias) the centring check `num_under == num_over` compares 0 against 4
and rejects the run. -/
theorem claim_c2_counterexample : group_hdr_photos dataA ≠ [dataA] := by
  with_unfolding_all decide

/-- **C2, amended.** On the Scenario A input the pipeline returns zero
accepted groups: the single run of five is rejected by the
`num_under == num_over` check evaluated against the first-captured bias
−2. -/
theorem claim_c2_amended : group_hdr_photos dataA = [] := by
  with_unfolding_all decide

/-- **C3.** The segmentation runs concatenate back to the input in
original order, and the output of the grouping algorithm is an
order-preserving sublist of those runs; hence every output group is a
contiguous sub-sequence of the input, no record appears in two output
groups, and output groups appear in input order. -/
theorem claim_c3_contiguous_partition (data : List PhotoRecord) :
    (segmentRuns data).flatten = data ∧
      (group_hdr_photos data).Sublist (segmentRuns data) := by
  refine ⟨?_, List.filter_sublist _⟩
  simpa using segGo_flatten data []

/-- **C4.** The grouping algorithm is NOT total on records with
unparsable bias strings: a single record whose `Exposure Bias` string is
`"1/0"` makes `parse_exposure_bias` evaluate `1.0/0.0`, raising
`ZeroDivisionError`, which the `except ValueError` of line 40 does not
catch; `group_hdr_photos` propagates it instead of returning a list. -/
theorem claim_c4_crash_on_zero_denominator :
    group_hdr_photos_raw [⟨"a1", some 0, "Auto", "1/0"⟩] =
      .error .zeroDivisionError := by
  with_unfolding_all rfl

/-- **C5, counterexample.** On the Scenario D input (19 same-mode records
one second apart with biases repeating the triplet −1, 0, +1) the
pipeline does not produce two groups: each 9-member run has sorted
base-adjusted biases `[0,0,0,1,1,1,2,2,2]`, whose consecutive
differences are not all equal, so both 9-runs are rejected. -/
theorem claim_c5_counterexample : (group_hdr_photos dataD).length ≠ 2 := by
  with_unfolding_all decide

/-- **C5, amended.** On the Scenario D input the pipeline accepts
nothing: segmentation caps runs at 9 members (runs of sizes 9, 9, 1),
the two 9-runs fail the equal-intervals check because the repeated
triplet biases produce duplicate adjusted values, and the leftover
single record fails the minimum-size check. -/
theorem claim_c5_amended : group_hdr_photos dataD = [] := by
  with_unfolding_all decide

/-- **C6.** Every group accepted by the pipeline has an odd number of
present-exposure-bias members, and that number is 3, 5, 7 or 9: the
validator forces at least 3 and odd, and the segmentation cap of 9
members per run bounds it above. -/
theorem claim_c6_bracket_sizes (data g : List PhotoRecord)
    (hg : g ∈ group_hdr_photos data) :
    (presentBiases g).length = 3 ∨ (presentBiases g).length = 5 ∨
    (presentBiases g).length = 7 ∨ (presentBiases g).length = 9 := by
  obtain ⟨hseg, hval⟩ := mem_group_hdr_photos hg
  obtain ⟨h3, hodd⟩ := validateBiases_size _ hval
  have hle : g.length ≤ 9 := segGo_length_le data [] (by simp) g hseg
  have hple : (presentBiases g).length ≤ g.length :=
    List.length_filterMap_le _ _
  omega

theorem claim_c6_bracket_sizes_witness :
    (presentBiases dataC).length = 3 ∨ (presentBiases dataC).length = 5 ∨
    (presentBiases dataC).length = 7 ∨ (presentBiases dataC).length = 9 :=
  claim_c6_bracket_sizes dataC dataC (by with_unfolding_all decide)

/-- **C7.** Boundary characterisation of the segmentation of a sorted
input: the runs concatenate to the input (so the final accumulator is
appended regardless of size and input order is preserved); no emitted
run is empty; within a run, no adjacent pair together with the
accumulator length at that point satisfies the boundary condition
(time gap above 1 s — infinite when a timestamp is absent — or mode
change or 9 accumulated members); and at each boundary between
consecutive runs the condition holds.  So a run is closed exactly when
the condition fires. -/
theorem claim_c7_segmentation_boundaries (data : List PhotoRecord) :
    (segmentRuns data).flatten = data ∧
    (∀ r ∈ segmentRuns data, r ≠ []) ∧
    (∀ r ∈ segmentRuns data, ∀ j a b, r[j]? = some a → r[j + 1]? = some b →
      newRunCond a b (j + 1) = false) ∧
    (∀ k r r', (segmentRuns data)[k]? = some r →
      (segmentRuns data)[k + 1]? = some r' →
      ∀ a b, r.getLast? = some a → r'.head? = some b →
      newRunCond a b r.length = true) := by
  exact ⟨by simpa using segGo_flatten data [], segGo_ne_nil data [],
    segmentRuns_inner data, segGo_boundary data []⟩

/-- **C8, counterexample.** The pipeline is not idempotent on its own
output: on `dataB` it accepts two 3-brackets separated only by one
rejected odd-mode record; re-sorting and re-running on their
concatenation merges them into a single 6-member run, which the
odd-size check rejects, so the second pass returns nothing. -/
theorem claim_c8_counterexample :
    group_hdr_photos (sortRecords ((group_hdr_photos dataB).flatten)) ≠
      group_hdr_photos dataB := by
  with_unfolding_all decide

/-- **C8, amended.** Idempotence holds group by group: re-running the
pipeline on a single accepted group yields exactly that group (its
internal adjacency never fires the boundary condition and it still
validates), though not on the concatenation of all accepted groups. -/
theorem claim_c8_amended_groupwise (data g : List PhotoRecord)
    (hg : g ∈ group_hdr_photos data) : group_hdr_photos g = [g] :=
  accepted_group_regroups_to_itself hg

theorem claim_c8_amended_groupwise_witness : group_hdr_photos dataC = [dataC] :=
  claim_c8_amended_groupwise dataC dataC (by with_unfolding_all decide)

/-- **C10.** An accepted group may retain members whose exposure bias is
absent: on `dataC` the pipeline accepts the whole 4-member run although
only 3 members have a present bias (one member's bias is `none`), so the
emitted group's total size strictly exceeds its present-bias count. -/
theorem claim_c10_absent_bias_members_kept :
    group_hdr_photos dataC = [dataC] ∧
    (presentBiases dataC).length < dataC.length ∧
    ∃ p ∈ dataC, p.exposureBias = none := by
  with_unfolding_all decide

/-! ## Sanity facts about the embedding at concrete inputs -/

/-- The two accepted groups of `dataB` (used by the C8 counterexample):
the two mode-`M` 3-brackets, with the mode-`X` separator rejected. -/
theorem sanity_dataB_groups :
    group_hdr_photos dataB =
      [[mkRec "a1" 0 "M" (some 0), mkRec "a2" 1 "M" (some (-1)),
        mkRec "a3" 2 "M" (some 1)],
       [mkRec "c1" 3 "M" (some 0), mkRec "c2" 4 "M" (some (-1)),
        mkRec "c3" 5 "M" (some 1)]] := by
  with_unfolding_all decide

/-- Re-running the pipeline on the re-sorted concatenation of `dataB`'s
accepted groups accepts nothing: the two 3-brackets merge into one
6-member run, rejected for even size. -/
theorem sanity_dataB_rerun_empty :
    group_hdr_photos (sortRecords ((group_hdr_photos dataB).flatten)) = [] := by
  with_unfolding_all decide

/-- Segmentation of the 19-record Scenario D input caps runs at 9:
run sizes 9, 9, 1. -/
theorem sanity_dataD_run_sizes :
    (segmentRuns dataD).map List.length = [9, 9, 1] := by
  with_unfolding_all decide

/-- The string-level parser on a well-formed fractional tag. -/
theorem sanity_parse_fraction :
    parse_exposure_bias "-2/3" = .ok (some (-2/3)) := by
  with_unfolding_all rfl

/-- An empty bias string (not `"N/A"`, so not filtered) makes line 72's
`.split()[0]` raise `IndexError` — a second failing input for C4. -/
theorem sanity_crash_on_empty_bias :
    group_hdr_photos_raw [⟨"a1", some 0, "Auto", ""⟩] =
      .error .indexError := by
  with_unfolding_all rfl

end NikonHDRGrouper
